import Mathlib

/-!
Verification of the hybrid-retrieval core of the `chat-with-history`
repository, shallowly embedded in Lean 4.

Sources embedded here:
* `services/hybrid_search_service.py` — `keyword_search`, `semantic_search`,
  `hybrid_search` (score fusion, sorting, truncation, error catching);
* `services/chunking_service.py` — `ChunkingService.split_text`;
* `services/embedding_service.py` — `float32_to_bytes`, `bytes_to_float32`,
  `get_chunk_embedding`.

Modelling conventions:
* Scores (BM25 raw values, cosine similarities, weights) are modelled as
  rationals `ℚ`; the claims under scrutiny concern ordering, weighted sums
  and defaulting to `0.0`, none of which depend on float rounding.
* A float32 value is modelled by its 32-bit pattern (a `Nat < 2^32`); the
  byte codec in `embedding_service.py` moves bytes and never performs
  float arithmetic, so the bit-pattern model is exact.
* Python strings are `List Char`; positions are `Nat`.  Under the
  configurations the claims quantify over (`chunk_size - overlap > 100`)
  the advancing start position of `split_text` never becomes negative, so
  `Nat` positions agree with Python's `int` arithmetic.
* The SQLite / FAISS engines are external: a search model takes the
  engine's match set (or its failure) as input.  Per the SQLite FTS5
  documentation, `bm25()` is cost-like: the better the match, the
  numerically smaller the returned value.
-/

/-- A row with a chunk id and one score, as produced by `keyword_search`
(`bm25_score`) or `semantic_search` (`cosine_score`).  Result metadata
(content, titles, folder names) plays no role in the ranking claims and is
not modelled. -/
structure ScoredRow where
  chunk_id : String
  score : ℚ
deriving DecidableEq

/-- A fused row of `hybrid_search` (lines 279-285 of
`hybrid_search_service.py`): the chunk id together with the three scores
written by `result_details.update`. -/
structure HybridResult where
  chunk_id : String
  bm25_score : ℚ
  cosine_score : ℚ
  hybrid_score : ℚ
deriving DecidableEq

/-- Descending order on a `ℚ`-valued key: the comparison used by
`ORDER BY ... DESC` and by `list.sort(key=..., reverse=True)`. -/
def descBy (f : α → ℚ) (x y : α) : Prop := f y ≤ f x

instance (f : α → ℚ) : DecidableRel (descBy f) :=
  fun x y => inferInstanceAs (Decidable (f y ≤ f x))

instance (f : α → ℚ) : IsTotal α (descBy f) :=
  ⟨fun a b => le_total (f b) (f a)⟩

instance (f : α → ℚ) : IsTrans α (descBy f) :=
  ⟨fun _ _ _ h1 h2 => le_trans h2 h1⟩

/-- First occurrence lookup in a result list, `0` when absent. -/
def firstScore : List ScoredRow → String → ℚ
  | [], _ => 0
  | r :: rest, c => if r.chunk_id = c then r.score else firstScore rest c

/-- Last-occurrence lookup modelling
`{result["chunk_id"]: result["..._score"] for result in results}.get(c, 0.0)`:
a Python dict comprehension keeps the *last* value bound to a key, so the
lookup scans the reversed list. -/
def scoreDict (l : List ScoredRow) (c : String) : ℚ :=
  firstScore l.reverse c

/-- Model of `keyword_search` (lines 92-158 of `hybrid_search_service.py`): the SQL
statement orders the FTS5 match set by the raw `bm25(...)` value
*descending* and truncates to `limit`; each returned row exposes that raw
value unchanged as `bm25_score`. -/
def keyword_search (engineRows : List ScoredRow) (limit : Nat) : List ScoredRow :=
  (List.insertionSort (descBy ScoredRow.score) engineRows).take limit

/-- Union of ids, `all_chunk_ids = set(bm25_scores.keys()) | set(cosine_scores.keys())`
(line 261).  A Python set has no specified order; we fix one concrete
order for the union (order only affects tie placement, which no claim
constrains). -/
def allChunkIds (b s : List ScoredRow) : List String :=
  (b.map ScoredRow.chunk_id ++ s.map ScoredRow.chunk_id).dedup

/-- One iteration of the fusion loop (lines 265-285): look both scores up,
defaulting to `0.0`, and form the weighted sum. -/
def mkHybridRow (b s : List ScoredRow) (w1 w2 : ℚ) (c : String) : HybridResult where
  chunk_id := c
  bm25_score := scoreDict b c
  cosine_score := scoreDict s c
  hybrid_score := w1 * scoreDict b c + w2 * scoreDict s c

/-- The unsorted fused list built by the loop over `all_chunk_ids`.  Every
id in the union is kept: `result_details` is found in one of the two
source lists, hence non-empty/truthy. -/
def hybridFuse (b s : List ScoredRow) (w1 w2 : ℚ) : List HybridResult :=
  (allChunkIds b s).map (mkHybridRow b s w1 w2)

/-- Default `bm25_weight` of `hybrid_search` (line 231). -/
def bm25_weight_default : ℚ := 35 / 100

/-- Default `cosine_weight` of `hybrid_search` (line 232). -/
def cosine_weight_default : ℚ := 65 / 100

/-- Model of the `hybrid_search` score fusion (lines 256-289), taking the two already
fetched result lists: fuse over the id union, sort by `hybrid_score`
descending (Python's stable sort), truncate to `limit`. -/
def hybrid_search (b s : List ScoredRow) (limit : Nat) (w1 w2 : ℚ) :
    List HybridResult :=
  (List.insertionSort (descBy HybridResult.hybrid_score) (hybridFuse b s w1 w2)).take limit

/-- Outcome of a call into an external engine (SQLite FTS5 / FAISS): either
the match rows, or a raised exception carrying a message. -/
inductive SignalOutcome where
  | ok (rows : List ScoredRow)
  | failed (msg : String)
deriving DecidableEq

/-- Check that `needle` occurs at the front of `hay`. -/
def leadsWith : List Char → List Char → Bool
  | _, [] => true
  | [], _ :: _ => false
  | c :: cs, d :: ds => c == d && leadsWith cs ds

/-- Python substring containment, `needle in hay`. -/
def containsSub (hay needle : List Char) : Bool :=
  match hay with
  | [] => needle.isEmpty
  | _ :: rest => leadsWith hay needle || containsSub rest needle

/-- The `no such table` test of lines 160-162: Python's
`"..." in str(e)` substring check. -/
def msgIsMissingFts (msg : String) : Bool :=
  containsSub msg.data "no such table: chunks_fts".data ||
    containsSub msg.data "no such table: document_chunks_fts".data

/-- Model of `keyword_search` including its `try/except` (lines 88-167): an engine
failure is caught; the missing-FTS-table branch and the generic branch
both return the empty list. -/
def keyword_search_impl (o : SignalOutcome) (limit : Nat) : List ScoredRow :=
  match o with
  | .ok rows => keyword_search rows limit
  | .failed msg => if msgIsMissingFts msg then [] else []

/-- What `keyword_search` presents to its caller: a value, never an
exception (no code path of lines 88-167 re-raises). -/
def keyword_search_run (o : SignalOutcome) (limit : Nat) :
    Except String (List ScoredRow) :=
  Except.ok (keyword_search_impl o limit)

/-- Model of `semantic_search` (lines 169-224): an unavailable index yields `ok []`
upstream of this model; the FAISS top-`limit` rows are passed through, and
any exception is caught, returning the empty list (lines 221-224). -/
def semantic_search_impl (o : SignalOutcome) (limit : Nat) : List ScoredRow :=
  match o with
  | .ok rows => rows.take limit
  | .failed _ => []

/-- Model of `hybrid_search` end to end (lines 226-289): fetch `limit * 2` rows from
each signal (each sub-search already catches its engine's failure), fuse,
and return; the surrounding `try/except` (lines 247-254) would also return
a plain list, so no path raises. -/
def hybrid_search_run (kw sem : SignalOutcome) (limit : Nat) (w1 w2 : ℚ) :
    Except String (List HybridResult) :=
  Except.ok
    (hybrid_search (keyword_search_impl kw (limit * 2))
      (semantic_search_impl sem (limit * 2)) limit w1 w2)

/-- The 4 little-endian bytes of a 32-bit pattern, as laid out by
`np.array(v, dtype=np.float32).tobytes()`. -/
def word32ToBytesLE (w : Nat) : List Nat :=
  [w % 256, w / 256 % 256, w / 65536 % 256, w / 16777216 % 256]

/-- Model of `float32_to_bytes` (`embedding_service.py` lines 66-68): concatenate
the little-endian float32 encodings. -/
def float32_to_bytes (v : List Nat) : List Nat :=
  (v.map word32ToBytesLE).flatten

/-- Recombine 4 little-endian bytes into a 32-bit pattern. -/
def bytesLEToWord32 (b0 b1 b2 b3 : Nat) : Nat :=
  b0 + 256 * b1 + 65536 * b2 + 16777216 * b3

/-- Model of `np.frombuffer(bytes, dtype=np.float32)`: consume the buffer 4 bytes at
a time; a trailing group of fewer than 4 bytes is the
`buffer size must be a multiple of element size` `ValueError`, modelled as
`none`.  No declared dimension is consulted. -/
def bytes_to_float32 : List Nat → Option (List Nat)
  | [] => some []
  | _ :: [] => none
  | _ :: _ :: [] => none
  | _ :: _ :: _ :: [] => none
  | b0 :: b1 :: b2 :: b3 :: rest =>
    (bytes_to_float32 rest).map (fun ws => bytesLEToWord32 b0 b1 b2 b3 :: ws)

/-- A stored embedding record (`models.ChunkEmbedding`): the binary blob
and the declared dimension column. -/
structure ChunkEmbeddingRec where
  embedding : List Nat
  embedding_dimension : Nat
deriving DecidableEq

/-- The decode step of `get_chunk_embedding` (lines 128-146): it returns
`bytes_to_float32(chunk_embedding.embedding)` and never reads
`embedding_dimension`. -/
def get_chunk_embedding (r : ChunkEmbeddingRec) : Option (List Nat) :=
  bytes_to_float32 r.embedding

/-- Python `str.strip()` whitespace class (ASCII part; exotic Unicode
whitespace is outside the modelled alphabet). -/
def pyIsSpace (c : Char) : Bool :=
  c = ' ' || c = '\t' || c = '\n' || c = '\r' || c = '\x0b' || c = '\x0c'

/-- Python `text[i:j]` for `0 ≤ i ≤ j` (out-of-range ends clamp). -/
def pySlice (text : List Char) (i j : Nat) : List Char :=
  (text.drop i).take (j - i)

/-- Python `s.strip()`: drop leading whitespace, then trailing whitespace. -/
def pyStrip (l : List Char) : List Char :=
  ((l.dropWhile pyIsSpace).reverse.dropWhile pyIsSpace).reverse

/-- Scan positions `i + n - 1, ..., i` downward for character `c`. -/
def rfindAux (text : List Char) (c : Char) (i : Nat) : Nat → Option Nat
  | 0 => none
  | n + 1 => if text[i + n]? = some c then some (i + n) else rfindAux text c i n

/-- Python `text.rfind(c, i, j)` for a single character: the largest
`k` with `i ≤ k < min j len(text)` and `text[k] = c`, else `None`
(Python's `-1`). -/
def rfindRange (text : List Char) (c : Char) (i j : Nat) : Option Nat :=
  rfindAux text c i (min j text.length - i)

/-- One arm of the natural-break-point fallback (lines 48-52 of
`chunking_service.py`): use `rfind(break_char, search_start, e)` only when
the hit is strictly after `start`. -/
def tryBreak (text : List Char) (c : Char) (ss e start : Nat) : Option Nat :=
  match rfindRange text c ss e with
  | some k => if start < k then some (k + 1) else none
  | none => none

/-- The `for break_char in ['\n', '!', '?', ';']` fallback loop (lines
48-52): the first break character (in that preference order) with a usable
hit wins. -/
def firstBreak (text : List Char) (ss e start : Nat) : Option Nat :=
  match tryBreak text '\n' ss e start with
  | some m => some m
  | none =>
    match tryBreak text '!' ss e start with
    | some m => some m
    | none =>
      match tryBreak text '?' ss e start with
      | some m => some m
      | none => tryBreak text ';' ss e start

/-- The cut position chosen for the window starting at `start` (lines
37-52): raw end `start + chunk_size`, snapped back to a sentence end `.`
in the last 100 characters when strictly after `start`, else to the first
of `\n`, `!`, `?`, `;` that applies, else kept raw.  No snapping happens
on the final window (`end >= len(text)`). -/
def nextEnd (cs : Nat) (text : List Char) (start : Nat) : Nat :=
  let e := start + cs
  if e < text.length then
    let ss := max (start + cs - 100) start
    match rfindRange text '.' ss e with
    | some k => if start < k then k + 1 else (firstBreak text ss e start).getD e
    | none => (firstBreak text ss e start).getD e
  else e

/-- Advance of the window, `start = end - overlap` (line 59). -/
def nextStart (cs ov : Nat) (text : List Char) (start : Nat) : Nat :=
  nextEnd cs text start - ov

/-- The `while start < len(text)` loop of `split_text` (lines 36-61):
strip the window, keep it when non-empty, advance by `end - overlap`.
Python has no guard against a non-advancing `start`, so the loop is given
explicit fuel; `none` models non-termination within the allotted fuel. -/
def splitTextGo (cs ov : Nat) (text : List Char) :
    Nat → Nat → List (List Char) → Option (List (List Char))
  | 0, _, _ => none
  | fuel + 1, start, acc =>
    if start < text.length then
      let e := nextEnd cs text start
      let chunk := pyStrip (pySlice text start e)
      let acc2 := if chunk.isEmpty then acc else acc ++ [chunk]
      splitTextGo cs ov text fuel (nextStart cs ov text start) acc2
    else some acc

/-- Model of `ChunkingService.split_text` (lines 20-63) with chunk size `cs` and
overlap `ov` (service defaults: 1000 and 200): short text is returned
verbatim as a singleton; otherwise the windowing loop runs.  `length + 1`
fuel suffices whenever the start position strictly advances. -/
def split_text (cs ov : Nat) (text : List Char) : Option (List (List Char)) :=
  if text.length ≤ cs then some [text]
  else splitTextGo cs ov text (text.length + 1) 0 []

/-! ## Supporting lemmas -/

theorem bytesLEToWord32_word32ToBytesLE (w : Nat) (hw : w < 2 ^ 32) :
    bytesLEToWord32 (w % 256) (w / 256 % 256) (w / 65536 % 256) (w / 16777216 % 256) = w := by
  unfold bytesLEToWord32
  omega

theorem bytes_to_float32_spec_aux :
    ∀ (n : Nat) (bs : List Nat), bs.length ≤ n →
      ((bytes_to_float32 bs).isSome ↔ bs.length % 4 = 0) ∧
        ∀ v, bytes_to_float32 bs = some v → v.length = bs.length / 4 := by
  intro n
  induction n with
  | zero =>
    intro bs h
    have hbs : bs = [] := List.length_eq_zero.mp (Nat.le_zero.mp h)
    subst hbs
    simp [bytes_to_float32]
  | succ n ih =>
    intro bs h
    match bs with
    | [] => simp [bytes_to_float32]
    | [a] => simp [bytes_to_float32]
    | [a, b] => simp [bytes_to_float32]
    | [a, b, c] => simp [bytes_to_float32]
    | a :: b :: c :: d :: rest =>
      have hrest := ih rest (by simp at h; omega)
      constructor
      · cases hbr : bytes_to_float32 rest with
        | none =>
          have hmod : ¬ rest.length % 4 = 0 := by
            intro hmod
            have hsome := hrest.1.mpr hmod
            rw [hbr] at hsome
            simp at hsome
          simp only [bytes_to_float32, hbr, Option.map_none', List.length_cons]
          constructor
          · intro hfalse; simp at hfalse
          · intro hlen; omega
        | some ws =>
          have hmod : rest.length % 4 = 0 := hrest.1.mp (by rw [hbr]; rfl)
          simp only [bytes_to_float32, hbr, Option.map_some', List.length_cons]
          constructor
          · intro _; omega
          · intro _; rfl
      · intro v hv
        simp only [bytes_to_float32] at hv
        cases hbr : bytes_to_float32 rest with
        | none => rw [hbr] at hv; simp at hv
        | some ws =>
          rw [hbr] at hv
          simp only [Option.map_some', Option.some.injEq] at hv
          have hws := hrest.2 ws hbr
          rw [← hv]
          simp only [List.length_cons, hws]
          omega

/-! ## C2, C4, C5, C7, C8, C10 -/

/-- C2: refuted as stated; this theorem evaluates the embedded
`keyword_search` at the failing input.  The FTS5 engine's `bm25()` value is
cost-like (the better the match, the smaller the value), yet the SQL in
`keyword_search` orders by that raw value *descending* and exposes it
unchanged: with matches of raw cost `-5` (strong) and `-1` (weak) and
`limit = 1`, the single returned row is the weak match carrying its raw
cost-like score, while relevance-descending order would return the strong
match first. -/
theorem keyword_search_orders_least_relevant_first :
    keyword_search [ScoredRow.mk "strong" (-5), ScoredRow.mk "weak" (-1)] 1 =
        [ScoredRow.mk "weak" (-1)] ∧
      (-5 : ℚ) < -1 := by
  constructor
  · rfl
  · decide

/-- C4: decoding the encoded blob of any float32 vector (each element
modelled by its 32-bit pattern) returns the vector bit-exactly:
`bytes_to_float32 (float32_to_bytes v) = v`. -/
theorem float32_roundtrip :
    ∀ v : List Nat, (∀ x ∈ v, x < 2 ^ 32) →
      bytes_to_float32 (float32_to_bytes v) = some v := by
  intro v
  induction v with
  | nil => intro _; rfl
  | cons w rest ih =>
    intro h
    have hw : w < 2 ^ 32 := h w (by simp)
    have hrest := ih fun x hx => h x (by simp [hx])
    have hbytes : float32_to_bytes (w :: rest) =
        w % 256 :: w / 256 % 256 :: w / 65536 % 256 :: w / 16777216 % 256 ::
          float32_to_bytes rest := by
      simp [float32_to_bytes, word32ToBytesLE]
    rw [hbytes]
    simp only [bytes_to_float32]
    rw [hrest]
    simp [bytesLEToWord32_word32ToBytesLE w hw]

/-- Witness for C4 at a concrete two-element vector. -/
theorem float32_roundtrip_witness :
    (∀ x ∈ [5, 4294967295], x < 2 ^ 32) ∧
      bytes_to_float32 (float32_to_bytes [5, 4294967295]) = some [5, 4294967295] :=
  ⟨by decide, float32_roundtrip [5, 4294967295] (by decide)⟩

/-- C5: the function `split_text` returns `[text]` unchanged whenever
`len(text) <= chunk_size` (lines 30-31 of `chunking_service.py`). -/
theorem split_text_short_identity (cs ov : Nat) (text : List Char)
    (h : text.length ≤ cs) : split_text cs ov text = some [text] := by
  unfold split_text
  simp [h]

/-- Witness for C5 at a concrete short string. -/
theorem split_text_short_identity_witness :
    ("hi there".data.length ≤ 1000) ∧
      split_text 1000 200 "hi there".data = some ["hi there".data] :=
  ⟨by decide, split_text_short_identity 1000 200 "hi there".data (by decide)⟩

/-- C7: refuted as stated.  A record declaring `embedding_dimension = 1536`
whose blob holds only two float32 values decodes *silently* to a length-2
vector: `get_chunk_embedding` never compares the decoded length with the
declared dimension, so no `DimensionMismatch`-style hard error exists for
well-formed blobs of the wrong length. -/
theorem get_chunk_embedding_no_dimension_check_cex :
    get_chunk_embedding (ChunkEmbeddingRec.mk (float32_to_bytes [1, 2]) 1536) = some [1, 2] ∧
      ([1, 2] : List Nat).length ≠
        (ChunkEmbeddingRec.mk (float32_to_bytes [1, 2]) 1536).embedding_dimension := by
  constructor
  · rfl
  · decide

/-- C7 (amended): decoding a stored blob yields a vector of length
`len(blob) / 4` whenever `len(blob)` is a multiple of 4, regardless of the
record's declared dimension (which the decode never consults); only a blob
length that is not a multiple of 4 is a hard error (`ValueError` from
`np.frombuffer`, modelled as `none`). -/
theorem bytes_to_float32_length_spec (bs : List Nat) :
    ((bytes_to_float32 bs).isSome ↔ bs.length % 4 = 0) ∧
      (∀ v, bytes_to_float32 bs = some v → v.length = bs.length / 4) ∧
      ∀ r : ChunkEmbeddingRec, get_chunk_embedding r = bytes_to_float32 r.embedding := by
  obtain ⟨h1, h2⟩ := bytes_to_float32_spec_aux bs.length bs le_rfl
  exact ⟨h1, h2, fun _ => rfl⟩

/-- Witness for the amended C7 at a concrete six-byte blob (not a multiple
of four, hence a decode error) and at a concrete eight-byte blob. -/
theorem bytes_to_float32_length_spec_witness :
    bytes_to_float32 [0, 0, 0, 0, 0, 0] = none ∧
      ([1073741824, 1065353216] : List Nat).length =
        ([0, 0, 0, 64, 0, 0, 128, 63] : List Nat).length / 4 :=
  ⟨by decide,
    (bytes_to_float32_length_spec [0, 0, 0, 64, 0, 0, 128, 63]).2.1
      [1073741824, 1065353216] (by decide)⟩

/-- C8: refuted as stated.  With the FTS tables missing *and* the vector
side failing — both signals simultaneously unusable — `hybrid_search`
returns the ordinary empty result list `ok []` to its caller, not an
explicit "search unavailable" error. -/
theorem hybrid_search_both_signals_down_cex :
    hybrid_search_run (SignalOutcome.failed "no such table: chunks_fts")
        (SignalOutcome.failed "FAISS index build failed") 10 (35 / 100) (65 / 100) =
      Except.ok [] := by
  rfl

/-- C8 (amended): a search request *never* fails: `hybrid_search` always
returns an ordinary result list, and when both the lexical and the vector
signal are unusable that list is simply empty — no "search unavailable"
error exists in the code. -/
theorem hybrid_search_never_errors (kw sem : SignalOutcome) (limit : Nat) (w1 w2 : ℚ) :
    (∃ rows, hybrid_search_run kw sem limit w1 w2 = Except.ok rows) ∧
      ∀ mk ms, kw = SignalOutcome.failed mk → sem = SignalOutcome.failed ms →
        hybrid_search_run kw sem limit w1 w2 = Except.ok [] := by
  constructor
  · exact ⟨_, rfl⟩
  · rintro mk ms rfl rfl
    show Except.ok (hybrid_search (if msgIsMissingFts mk then [] else []) [] limit w1 w2) = _
    simp [hybrid_search, hybridFuse, allChunkIds]

/-- Witness for the amended C8: both engines down at a concrete input. -/
theorem hybrid_search_never_errors_witness :
    hybrid_search_run (SignalOutcome.failed "boom") (SignalOutcome.failed "down") 3 1 1 =
      Except.ok [] :=
  (hybrid_search_never_errors _ _ 3 1 1).2 "boom" "down" rfl rfl

/-- C10: the function `keyword_search` is total over its error modes: whatever the
engine outcome — the missing-FTS-table exception or any other exception,
e.g. a malformed MATCH query — the wrapper catches it and returns the
empty list; it always hands an ordinary value (never an exception) to its
caller. -/
theorem keyword_search_total_on_errors (o : SignalOutcome) (limit : Nat) :
    (∃ rows, keyword_search_run o limit = Except.ok rows) ∧
      ∀ msg, o = SignalOutcome.failed msg → keyword_search_run o limit = Except.ok [] := by
  constructor
  · exact ⟨_, rfl⟩
  · rintro msg rfl
    show Except.ok (if msgIsMissingFts msg then [] else []) = _
    simp

/-- Witness for C10 at a concrete non-missing-table engine failure. -/
theorem keyword_search_total_on_errors_witness :
    keyword_search_run (SignalOutcome.failed "malformed MATCH query near quote") 5 =
      Except.ok [] :=
  (keyword_search_total_on_errors _ 5).2 _ rfl

/-! ## Score-dictionary lemmas -/

theorem firstScore_eq_zero (l : List ScoredRow) (c : String)
    (h : c ∉ l.map ScoredRow.chunk_id) : firstScore l c = 0 := by
  induction l with
  | nil => rfl
  | cons r rest ih =>
    simp only [List.map_cons, List.mem_cons] at h
    push_neg at h
    simp only [firstScore, ih h.2]
    rw [if_neg (Ne.symm h.1)]

theorem scoreDict_eq_zero (l : List ScoredRow) (c : String)
    (h : c ∉ l.map ScoredRow.chunk_id) : scoreDict l c = 0 := by
  apply firstScore_eq_zero
  rw [List.map_reverse]
  simpa using h

theorem firstScore_mem (l : List ScoredRow) (r : ScoredRow)
    (hnd : (l.map ScoredRow.chunk_id).Nodup) (hr : r ∈ l) :
    firstScore l r.chunk_id = r.score := by
  induction l with
  | nil => cases hr
  | cons x rest ih =>
    simp only [List.map_cons, List.nodup_cons] at hnd
    rcases List.mem_cons.mp hr with heq | hmem
    · subst heq
      simp [firstScore]
    · have hne : x.chunk_id ≠ r.chunk_id := by
        intro he
        exact hnd.1 (he ▸ List.mem_map_of_mem ScoredRow.chunk_id hmem)
      simp only [firstScore, if_neg hne]
      exact ih hnd.2 hmem

theorem scoreDict_mem (l : List ScoredRow) (r : ScoredRow)
    (hnd : (l.map ScoredRow.chunk_id).Nodup) (hr : r ∈ l) :
    scoreDict l r.chunk_id = r.score := by
  refine firstScore_mem l.reverse r ?_ (List.mem_reverse.mpr hr)
  rw [List.map_reverse]
  exact List.nodup_reverse.mpr hnd

/-! ## C1 -/

/-- C1: over the union of chunk ids seen in the lexical and semantic
result lists, `hybrid_search` scores every id as
`bm25_weight * bm25_score + cosine_weight * cosine_score`, a side missing
an id contributing `0.0`; the returned list is sorted by `hybrid_score`
descending, holds at most `limit` entries, and the default weights are
`0.35` and `0.65`. -/
theorem hybrid_search_weighted_fusion (b s : List ScoredRow) (limit : Nat) (w1 w2 : ℚ) :
    (hybrid_search b s limit w1 w2).length ≤ limit ∧
      List.Sorted (descBy HybridResult.hybrid_score) (hybrid_search b s limit w1 w2) ∧
      (hybridFuse b s w1 w2).map HybridResult.chunk_id = allChunkIds b s ∧
      (∀ r ∈ hybrid_search b s limit w1 w2,
        r.bm25_score = scoreDict b r.chunk_id ∧
          r.cosine_score = scoreDict s r.chunk_id ∧
          r.hybrid_score = w1 * r.bm25_score + w2 * r.cosine_score ∧
          r.chunk_id ∈ allChunkIds b s ∧
          (r.chunk_id ∉ b.map ScoredRow.chunk_id → r.bm25_score = 0) ∧
          (r.chunk_id ∉ s.map ScoredRow.chunk_id → r.cosine_score = 0)) ∧
      bm25_weight_default = 35 / 100 ∧ cosine_weight_default = 65 / 100 := by
  refine ⟨List.length_take_le _ _, ?_, ?_, ?_, rfl, rfl⟩
  · exact List.Pairwise.sublist (List.take_sublist _ _) (List.sorted_insertionSort _ _)
  · simp only [hybridFuse, List.map_map]
    have hcomp : (HybridResult.chunk_id ∘ mkHybridRow b s w1 w2) = id := by
      funext c; rfl
    rw [hcomp, List.map_id]
  · intro r hr
    have hr1 : r ∈ List.insertionSort (descBy HybridResult.hybrid_score)
        (hybridFuse b s w1 w2) := List.mem_of_mem_take hr
    have hr2 : r ∈ hybridFuse b s w1 w2 :=
      (List.perm_insertionSort _ _).mem_iff.mp hr1
    obtain ⟨c, hc, rfl⟩ := List.mem_map.mp hr2
    refine ⟨rfl, rfl, rfl, hc, ?_, ?_⟩
    · intro hnb
      exact scoreDict_eq_zero b c hnb
    · intro hns
      exact scoreDict_eq_zero s c hns

/-- Witness for C1 at concrete one-row lexical and semantic inputs. -/
theorem hybrid_search_weighted_fusion_witness :
    (hybrid_search [ScoredRow.mk "a" 2] [ScoredRow.mk "b" 1] 2 (35 / 100) (65 / 100)).length ≤ 2 ∧
      List.Sorted (descBy HybridResult.hybrid_score)
        (hybrid_search [ScoredRow.mk "a" 2] [ScoredRow.mk "b" 1] 2 (35 / 100) (65 / 100)) :=
  ⟨(hybrid_search_weighted_fusion [ScoredRow.mk "a" 2] [ScoredRow.mk "b" 1] 2
      (35 / 100) (65 / 100)).1,
    (hybrid_search_weighted_fusion [ScoredRow.mk "a" 2] [ScoredRow.mk "b" 1] 2
      (35 / 100) (65 / 100)).2.1⟩

/-! ## C3 -/

/-- C3: when the semantic side yields no results (vector index empty or
never built), `hybrid_search` — which internally fetches `limit * 2`
lexical rows — ranks exactly like `keyword_search` alone at the same
`limit`, and every returned row carries `cosine_score = 0`; the function
returns a plain list, never a failure.  Hypotheses: the FTS rows carry
distinct chunk ids (they are keyed by the table's primary key), and the
BM25 weight is non-negative (the default `0.35` is). -/
theorem hybrid_search_degrades_to_keyword_search (engineRows : List ScoredRow)
    (limit : Nat) (w1 w2 : ℚ)
    (hnd : (engineRows.map ScoredRow.chunk_id).Nodup) (hw : 0 ≤ w1) :
    ((hybrid_search (keyword_search engineRows (limit * 2)) [] limit w1 w2).map
        HybridResult.chunk_id
      = (keyword_search engineRows limit).map ScoredRow.chunk_id) ∧
      ∀ r ∈ hybrid_search (keyword_search engineRows (limit * 2)) [] limit w1 w2,
        r.cosine_score = 0 := by
  set S := List.insertionSort (descBy ScoredRow.score) engineRows with hS
  have hS_sorted : List.Sorted (descBy ScoredRow.score) S := List.sorted_insertionSort _ _
  have hS_nodup : (S.map ScoredRow.chunk_id).Nodup :=
    ((List.perm_insertionSort (descBy ScoredRow.score) engineRows).map
      ScoredRow.chunk_id).symm.nodup hnd
  have hB : keyword_search engineRows (limit * 2) = S.take (limit * 2) := rfl
  set B := S.take (limit * 2) with hBdef
  have hB_sorted : List.Sorted (descBy ScoredRow.score) B :=
    List.Pairwise.sublist (List.take_sublist _ _) hS_sorted
  have hB_map : B.map ScoredRow.chunk_id = (S.map ScoredRow.chunk_id).take (limit * 2) :=
    List.map_take _ _ _
  have hB_nodup : (B.map ScoredRow.chunk_id).Nodup := by
    rw [hB_map]
    exact List.Nodup.sublist (List.take_sublist _ _) hS_nodup
  have hIds : allChunkIds B [] = B.map ScoredRow.chunk_id := by
    simp only [allChunkIds, List.map_nil, List.append_nil]
    exact List.dedup_eq_self.mpr hB_nodup
  have hfuse : hybridFuse B [] w1 w2 =
      B.map (mkHybridRow B [] w1 w2 ∘ ScoredRow.chunk_id) := by
    simp only [hybridFuse]
    rw [hIds, List.map_map]
  have hscore : ∀ x ∈ B, (mkHybridRow B [] w1 w2 x.chunk_id).hybrid_score = w1 * x.score := by
    intro x hx
    show w1 * scoreDict B x.chunk_id + w2 * scoreDict [] x.chunk_id = w1 * x.score
    rw [scoreDict_mem B x hB_nodup hx]
    show w1 * x.score + w2 * 0 = w1 * x.score
    ring
  have hfuse_sorted : List.Sorted (descBy HybridResult.hybrid_score)
      (hybridFuse B [] w1 w2) := by
    rw [hfuse]
    refine List.pairwise_map.mpr (List.Pairwise.imp_of_mem ?_ hB_sorted)
    intro a b ha hb hab
    show (mkHybridRow B [] w1 w2 b.chunk_id).hybrid_score ≤
      (mkHybridRow B [] w1 w2 a.chunk_id).hybrid_score
    rw [hscore a ha, hscore b hb]
    exact mul_le_mul_of_nonneg_left hab hw
  have hsorteq : List.insertionSort (descBy HybridResult.hybrid_score)
      (hybridFuse B [] w1 w2) = hybridFuse B [] w1 w2 :=
    List.Sorted.insertionSort_eq hfuse_sorted
  have hmin : limit ⊓ (limit * 2) = limit := inf_eq_left.mpr (by omega)
  constructor
  · show ((List.insertionSort (descBy HybridResult.hybrid_score)
        (hybridFuse B [] w1 w2)).take limit).map HybridResult.chunk_id = _
    rw [hsorteq, hfuse, ← List.map_take, List.map_map]
    have hcomp : HybridResult.chunk_id ∘ (mkHybridRow B [] w1 w2 ∘ ScoredRow.chunk_id) =
        ScoredRow.chunk_id := by
      funext x; rfl
    rw [hcomp, List.map_take, hB_map, List.take_take, hmin, ← List.map_take]
    rfl
  · intro r hr
    have hr1 := List.mem_of_mem_take hr
    rw [hB, hsorteq, hfuse] at hr1
    obtain ⟨x, hx, rfl⟩ := List.mem_map.mp hr1
    rfl

/-- Witness for C3 at a concrete two-row lexical corpus, `limit = 1`,
default weights. -/
theorem hybrid_search_degrades_to_keyword_search_witness :
    (([ScoredRow.mk "a" (-1), ScoredRow.mk "b" (-3)].map ScoredRow.chunk_id).Nodup ∧
        (0 : ℚ) ≤ 35 / 100) ∧
      (hybrid_search (keyword_search [ScoredRow.mk "a" (-1), ScoredRow.mk "b" (-3)] (1 * 2))
          [] 1 (35 / 100) (65 / 100)).map HybridResult.chunk_id
        = (keyword_search [ScoredRow.mk "a" (-1), ScoredRow.mk "b" (-3)] 1).map
            ScoredRow.chunk_id :=
  ⟨⟨by decide, by norm_num⟩,
    (hybrid_search_degrades_to_keyword_search [ScoredRow.mk "a" (-1), ScoredRow.mk "b" (-3)]
      1 (35 / 100) (65 / 100) (by decide) (by norm_num)).1⟩

/-! ## Chunking lemmas -/

theorem rfindAux_bounds (text : List Char) (c : Char) (i : Nat) :
    ∀ n k, rfindAux text c i n = some k → i ≤ k ∧ k < i + n := by
  intro n
  induction n with
  | zero => intro k h; simp [rfindAux] at h
  | succ n ih =>
    intro k h
    by_cases hc : text[i + n]? = some c
    · rw [rfindAux, if_pos hc] at h
      injection h with h2
      omega
    · rw [rfindAux, if_neg hc] at h
      have := ih k h
      omega

theorem rfindRange_ge (text : List Char) (c : Char) (i j k : Nat)
    (h : rfindRange text c i j = some k) : i ≤ k :=
  (rfindAux_bounds text c i _ k h).1

theorem tryBreak_ge (text : List Char) (c : Char) (ss e start m : Nat)
    (h : tryBreak text c ss e start = some m) : ss + 1 ≤ m := by
  unfold tryBreak at h
  cases hr : rfindRange text c ss e with
  | none =>
    simp only [hr] at h
    exact Option.noConfusion h
  | some k =>
    simp only [hr] at h
    by_cases hk : start < k
    · rw [if_pos hk] at h
      injection h with h2
      have := rfindRange_ge text c ss e k hr
      omega
    · rw [if_neg hk] at h
      exact Option.noConfusion h

theorem firstBreak_ge (text : List Char) (ss e start m : Nat)
    (h : firstBreak text ss e start = some m) : ss + 1 ≤ m := by
  unfold firstBreak at h
  cases h1 : tryBreak text '\n' ss e start with
  | some v =>
    simp only [h1] at h
    injection h with h2
    subst h2
    exact tryBreak_ge text '\n' ss e start _ h1
  | none =>
    simp only [h1] at h
    cases h2 : tryBreak text '!' ss e start with
    | some v =>
      simp only [h2] at h
      injection h with h3
      subst h3
      exact tryBreak_ge text '!' ss e start _ h2
    | none =>
      simp only [h2] at h
      cases h3 : tryBreak text '?' ss e start with
      | some v =>
        simp only [h3] at h
        injection h with h4
        subst h4
        exact tryBreak_ge text '?' ss e start _ h3
      | none =>
        simp only [h3] at h
        exact tryBreak_ge text ';' ss e start m h

theorem nextEnd_lower (cs : Nat) (text : List Char) (start : Nat) :
    start + cs - 100 + 1 ≤ nextEnd cs text start ∨ nextEnd cs text start = start + cs := by
  unfold nextEnd
  by_cases he : start + cs < text.length
  · simp only [if_pos he]
    have hmax : start + cs - 100 ≤ max (start + cs - 100) start := le_max_left _ _
    cases hr : rfindRange text '.' (max (start + cs - 100) start) (start + cs) with
    | some k =>
      simp only [hr]
      by_cases hk : start < k
      · simp only [if_pos hk]
        left
        have hge := rfindRange_ge text '.' _ _ k hr
        omega
      · simp only [if_neg hk]
        cases hf : firstBreak text (max (start + cs - 100) start) (start + cs) start with
        | none => right; simp [hf]
        | some m =>
          left
          have := firstBreak_ge text _ _ start m hf
          simp only [hf, Option.getD_some]
          omega
    | none =>
      simp only [hr]
      cases hf : firstBreak text (max (start + cs - 100) start) (start + cs) start with
      | none => right; simp [hf]
      | some m =>
        left
        have := firstBreak_ge text _ _ start m hf
        simp only [hf, Option.getD_some]
        omega
  · right
    simp [he]

theorem nextStart_lt (cs ov : Nat) (text : List Char) (start : Nat)
    (hc : ov + 100 < cs) (_hs : start < text.length) :
    start < nextStart cs ov text start := by
  have key := nextEnd_lower cs text start
  unfold nextStart
  rcases key with h | h <;> omega

theorem splitTextGo_isSome (cs ov : Nat) (text : List Char)
    (hadv : ∀ s, s < text.length → s < nextStart cs ov text s) :
    ∀ (fuel start : Nat) (acc : List (List Char)),
      text.length - start < fuel → (splitTextGo cs ov text fuel start acc).isSome = true := by
  intro fuel
  induction fuel with
  | zero => intro start acc h; omega
  | succ n ih =>
    intro start acc h
    by_cases hs : start < text.length
    · simp only [splitTextGo, if_pos hs]
      apply ih
      have := hadv start hs
      omega
    · simp [splitTextGo, hs]

/-! ## C6 -/

/-- C6: whenever `chunk_size - overlap` exceeds the 100-character
boundary-snapping window (in particular at the service defaults
`chunk_size = 1000`, `overlap = 200`), the chunking loop of `split_text`
terminates — the fuelled loop succeeds within `len(text) + 1` iterations —
because the advancing start position strictly increases at every
iteration until it reaches or exceeds `len(text)`. -/
theorem split_text_terminates (cs ov : Nat) (hc : ov + 100 < cs) (text : List Char) :
    (split_text cs ov text).isSome = true ∧
      ∀ s, s < text.length → s < nextStart cs ov text s := by
  have hadv : ∀ s, s < text.length → s < nextStart cs ov text s :=
    fun s hs => nextStart_lt cs ov text s hc hs
  refine ⟨?_, hadv⟩
  unfold split_text
  by_cases hlen : text.length ≤ cs
  · simp [hlen]
  · rw [if_neg hlen]
    exact splitTextGo_isSome cs ov text hadv (text.length + 1) 0 [] (by omega)

/-- Witness for C6 at the default configuration and a concrete text. -/
theorem split_text_terminates_witness :
    (200 + 100 < 1000) ∧
      ((split_text 1000 200 "hello world".data).isSome = true ∧
        ∀ s, s < "hello world".data.length → s < nextStart 1000 200 "hello world".data s) :=
  ⟨by decide, split_text_terminates 1000 200 (by decide) "hello world".data⟩

/-! ## C9 -/

theorem head?_dropWhile_false (p : Char → Bool) :
    ∀ (l : List Char) (a : Char), (l.dropWhile p).head? = some a → p a = false := by
  intro l
  induction l with
  | nil => intro a h; simp [List.dropWhile] at h
  | cons x xs ih =>
    intro a h
    rw [List.dropWhile_cons] at h
    by_cases hp : p x = true
    · rw [if_pos hp] at h
      exact ih a h
    · rw [if_neg hp] at h
      simp only [List.head?_cons, Option.some.injEq] at h
      subst h
      simpa using hp

theorem getLast?_dropWhile (p : Char → Bool) :
    ∀ l : List Char, l.dropWhile p ≠ [] → (l.dropWhile p).getLast? = l.getLast? := by
  intro l
  induction l with
  | nil => intro h; simp [List.dropWhile] at h
  | cons x xs ih =>
    intro h
    rw [List.dropWhile_cons] at h ⊢
    by_cases hp : p x = true
    · rw [if_pos hp] at h ⊢
      rw [ih h]
      have hxs : xs ≠ [] := by
        intro he
        subst he
        simp [List.dropWhile] at h
      cases xs with
      | nil => exact absurd rfl hxs
      | cons y ys => exact List.getLast?_cons_cons.symm
    · rw [if_neg hp]

theorem pyStrip_head (l : List Char) (ch : Char)
    (h : (pyStrip l).head? = some ch) : pyIsSpace ch = false := by
  unfold pyStrip at h
  rw [List.head?_reverse] at h
  have hne : (List.dropWhile pyIsSpace (List.dropWhile pyIsSpace l).reverse) ≠ [] := by
    intro he
    rw [he] at h
    simp at h
  rw [getLast?_dropWhile pyIsSpace _ hne, List.getLast?_reverse] at h
  exact head?_dropWhile_false pyIsSpace l ch h

theorem pyStrip_getLast (l : List Char) (ch : Char)
    (h : (pyStrip l).getLast? = some ch) : pyIsSpace ch = false := by
  unfold pyStrip at h
  rw [List.getLast?_reverse] at h
  exact head?_dropWhile_false pyIsSpace _ ch h

/-- A chunk as kept by the multi-chunk loop: non-empty and carrying no
leading or trailing whitespace. -/
def GoodChunk (c : List Char) : Prop :=
  c ≠ [] ∧ (∀ ch, c.head? = some ch → pyIsSpace ch = false) ∧
    ∀ ch, c.getLast? = some ch → pyIsSpace ch = false

theorem goodChunk_pyStrip (x : List Char) (h : pyStrip x ≠ []) : GoodChunk (pyStrip x) :=
  ⟨h, fun ch hch => pyStrip_head x ch hch, fun ch hch => pyStrip_getLast x ch hch⟩

theorem splitTextGo_chunks (cs ov : Nat) (text : List Char) :
    ∀ (fuel start : Nat) (acc chunks : List (List Char)),
      splitTextGo cs ov text fuel start acc = some chunks →
      (∀ c ∈ acc, GoodChunk c) → ∀ c ∈ chunks, GoodChunk c := by
  intro fuel
  induction fuel with
  | zero => intro start acc chunks h; simp [splitTextGo] at h
  | succ n ih =>
    intro start acc chunks h hacc
    by_cases hs : start < text.length
    · simp only [splitTextGo, if_pos hs] at h
      refine ih _ _ _ h ?_
      intro c hc
      by_cases hemp : (pyStrip (pySlice text start (nextEnd cs text start))).isEmpty = true
      · rw [if_pos hemp] at hc
        exact hacc c hc
      · rw [if_neg hemp] at hc
        rcases List.mem_append.mp hc with hcl | hcr
        · exact hacc c hcl
        · have hceq : c = pyStrip (pySlice text start (nextEnd cs text start)) := by
            simpa using hcr
          subst hceq
          refine goodChunk_pyStrip _ ?_
          intro he
          rw [he] at hemp
          simp at hemp
    · simp only [splitTextGo, if_neg hs, Option.some.injEq] at h
      subst h
      exact hacc

/-- C9: at the service defaults (`chunk_size = 1000`, `overlap = 200`) the
trim-and-drop rule applies only on the multi-chunk path: for text longer
than `chunk_size`, every returned chunk is non-empty with no leading or
trailing whitespace; for text of length at most `chunk_size` — including
empty and whitespace-only strings — `split_text` returns `[text]`
verbatim, untrimmed and undropped. -/
theorem split_text_trim_only_multichunk (text : List Char) :
    (1000 < text.length → ∀ chunks, split_text 1000 200 text = some chunks →
        ∀ c ∈ chunks, GoodChunk c) ∧
      (text.length ≤ 1000 → split_text 1000 200 text = some [text]) := by
  constructor
  · intro hlen chunks h
    unfold split_text at h
    rw [if_neg (by omega)] at h
    exact splitTextGo_chunks 1000 200 text _ 0 [] chunks h (by intro c hc; cases hc)
  · intro hlen
    unfold split_text
    rw [if_pos hlen]

/-- Witness for C9: a 1001-character text takes the multi-chunk path, and
a whitespace-only short text is returned verbatim. -/
theorem split_text_trim_only_multichunk_witness :
    (1000 < (List.replicate 1001 'a').length ∧
        (∀ chunks, split_text 1000 200 (List.replicate 1001 'a') = some chunks →
          ∀ c ∈ chunks, GoodChunk c)) ∧
      ("  ".data.length ≤ 1000 ∧ split_text 1000 200 "  ".data = some ["  ".data]) :=
  ⟨⟨by rw [List.length_replicate]; omega,
      (split_text_trim_only_multichunk (List.replicate 1001 'a')).1
        (by rw [List.length_replicate]; omega)⟩,
    ⟨by decide, (split_text_trim_only_multichunk "  ".data).2 (by decide)⟩⟩
